import Mathlib

/-!
# Verification of the prism-ct-browser-extension core algorithms

A shallow embedding of the extension's TypeScript sources
(`conversion.ts`, `proof_validation.ts`, `ct_parsing.ts`,
`prism_serialization.ts`, `background.ts`) into Lean 4, together with
theorems settling the specification claims about them.

Byte arrays (`Uint8Array`) are embedded as `List Nat` (each entry a byte
value), strings as Lean `String`.  JavaScript numbers that the code only
ever uses as integers are embedded as `Nat` (with explicit `% 2 ^ w`
reductions wherever the code's own operations wrap).  Code that can throw
is embedded in `Except String`; a `try`/`catch` becomes a `match` on the
`Except` value.
-/

namespace CtExt

/-- The browser / platform primitives the extension calls.  These are
external to the repository (Web Crypto `crypto.subtle.digest`, the DOM
`atob`, `TextEncoder.encode`, and the `@peculiar` ASN.1 parser and
serializer), so the embedding abstracts them as parameters: every theorem
about the repository's own code holds for an arbitrary environment.

`atob` combines the DOM base64 decode with the `charCodeAt` loop of
`base64ToBytes` (the decoded binary string read off as its byte values);
it returns `none` where `atob` would throw `InvalidCharacterError`. -/
structure JsEnv where
  sha256 : List Nat → List Nat
  atob : String → Option (List Nat)
  utf8 : String → List Nat

/-! ## conversion.ts -/

/-- `base64ToBytes` (conversion.ts): decode a base64 string to bytes;
the underlying `atob` throws on malformed input. -/
def base64ToBytes (env : JsEnv) (base64 : String) : Except String (List Nat) :=
  match env.atob base64 with
  | some bytes => .ok bytes
  | none => .error "InvalidCharacterError"

/-- The one-step `String.prototype.toUpperCase` mapping, on the ASCII
range (the only characters `hexToBytes` can accept; non-ASCII characters
make the string invalid hex whether or not they are case-mapped, since no
non-ASCII character upper-cases into `0-9A-F`).  Stated on code points:
97–122 are `a`–`z`, and subtracting 32 upper-cases them. -/
def jsUpperChar (c : Char) : Char :=
  if 97 ≤ c.toNat ∧ c.toNat ≤ 122 then Char.ofNat (c.toNat - 32) else c

/-- The `replace(/^0x/i, "")` step of `hexToBytes`: strip one leading
`0x` / `0X` / `0x` variant (any case), if present. -/
def stripHexPre : List Char → List Char
  | a :: c :: rest =>
    if a = '0' ∧ (c = 'x' ∨ c = 'X') then rest else a :: c :: rest
  | l => l

/-- Membership in the character class `[0-9A-F]` of `hexToBytes`'s
validation regex (code points 48–57 and 65–70). -/
def isUpperHexDigit (c : Char) : Bool :=
  (48 ≤ c.toNat ∧ c.toNat ≤ 57) ∨ (65 ≤ c.toNat ∧ c.toNat ≤ 70)

/-- Value of an upper-case hex digit, as `parseInt(-, 16)` reads it. -/
def hexDigitVal (c : Char) : Nat :=
  if c.toNat ≤ 57 then c.toNat - 48 else c.toNat - 55

/-- The `parseInt(paddedHex.substr(i, 2), 16)` loop of `hexToBytes`:
read off consecutive pairs of hex digits as byte values. -/
def hexPairsToBytes : List Char → List Nat
  | a :: b :: rest => (16 * hexDigitVal a + hexDigitVal b) :: hexPairsToBytes rest
  | _ => []

/-- `hexToBytes` (conversion.ts) on the string's characters: strip an
optional `0x` prefix, upper-case, validate against `[0-9A-F]*`, pad an
odd-length string with one leading `0`, and read off byte pairs. -/
def hexToBytesCore (chars : List Char) : Except String (List Nat) :=
  let normalizedHex := (stripHexPre chars).map jsUpperChar
  if normalizedHex.all isUpperHexDigit then
    let paddedHex := if normalizedHex.length % 2 = 1 then '0' :: normalizedHex else normalizedHex
    .ok (hexPairsToBytes paddedHex)
  else
    .error "Invalid hexadecimal string"

/-- `hexToBytes` (conversion.ts). -/
def hexToBytes (s : String) : Except String (List Nat) :=
  hexToBytesCore s.data

/-- `bytesToBits` (conversion.ts): one entry per bit, most significant
bit of byte 0 first.  `(byte >> (7 - j)) & 1` on a byte value is plain
`byte / 2 ^ (7 - j) % 2`. -/
def bytesToBits (bytes : List Nat) : List Nat :=
  (bytes.map (fun byte => (List.range 8).map (fun j => byte / 2 ^ (7 - j) % 2))).flatten

/-- JavaScript `ToInt32`: reduce mod `2^32` and read as a signed 32-bit
value. -/
def toInt32 (n : Nat) : Int :=
  if n % 2 ^ 32 < 2 ^ 31 then ((n % 2 ^ 32 : Nat) : Int)
  else ((n % 2 ^ 32 : Nat) : Int) - 2 ^ 32

/-- JavaScript `(num >> shift) & 0xff`: both operands pass through
`ToInt32`, the shift count is taken mod 32, the shift is arithmetic —
floor division by `2 ^ shift`, which for the positive divisor is `Int`'s
`/` — and the mask keeps the low 8 bits of the two's complement result,
i.e. the non-negative remainder mod 256. -/
def jsShrByte (num : Nat) (shift : Nat) : Nat :=
  ((toInt32 num / 2 ^ (shift % 32)) % 256).toNat

/-- The byte array `numberToBits` (conversion.ts) builds:
`bytes[i] = (num >> (56 - i * 8)) & 0xff` with JavaScript's 32-bit
shift semantics. -/
def numberToBytes (num : Nat) : List Nat :=
  (List.range 8).map (fun i => jsShrByte num (56 - i * 8))

/-- `numberToBits` (conversion.ts). -/
def numberToBits (num : Nat) : List Nat :=
  bytesToBits (numberToBytes num)

/-! ## byte_arrays.ts -/

/-- `areArraysEqual` (byte_arrays.ts): length check, then element-wise
comparison.  (`concatenateArrays` is embedded as list append.) -/
def areArraysEqual (arr1 arr2 : List Nat) : Bool :=
  if arr1.length ≠ arr2.length then false
  else (List.zip arr1 arr2).all (fun p => p.1 == p.2)

/-- `Array.prototype.slice(start)` for a possibly negative start index:
a negative start counts from the end, clamped at 0. -/
def jsSliceFrom (l : List Nat) (start : Int) : List Nat :=
  if start < 0 then l.drop ((l.length : Int) + start).toNat else l.drop start.toNat

/-! ## proof_validation.ts -/

/-- `CT_NODE_PREFIX` (proof_validation.ts). -/
def ctNodePre : List Nat := [0x01]

/-- `PRISM_LEAF_DOMAIN_SEPARATOR` (proof_validation.ts): the ASCII bytes
of `JMT::LeafNode`. -/
def prismLeafDomSep : List Nat :=
  [74, 77, 84, 58, 58, 76, 101, 97, 102, 78, 111, 100, 101]

/-- `PRISM_INTERNAL_DOMAIN_SEPARATOR` (proof_validation.ts). -/
def prismInternalDomSep : List Nat :=
  [74, 77, 84, 58, 58, 73, 110, 116, 114, 110, 97, 108, 78, 111, 100, 101]

/-- `PrismProof` (prism_types.ts): an optional leaf hash and sibling
hashes, all hex strings. -/
structure PrismProof where
  leaf : Option String
  siblings : List String

/-- `CtMerkleProof` (ct_log_types.ts): a leaf index and an audit path of
base64 strings. -/
structure CtMerkleProof where
  leaf_index : Nat
  audit_path : List String

/-- `calculateRootHash` (proof_validation.ts).  The source iterates `i`
over the sibling list, reading the direction `bits[i]` in step; the
embedding consumes the two lists in lockstep.  An out-of-range read
(`bits[i]` undefined) fails the `bit === 1` test, i.e. takes the
sibling-on-the-right branch, exactly as a missing direction entry does
here. -/
def calculateRootHash (H : List Nat → List Nat) (hashPre : List Nat) :
    List Nat → List Nat → List (List Nat) → List Nat
  | currentHash, _, [] => currentHash
  | currentHash, bit :: bits, siblingHash :: rest =>
      calculateRootHash H hashPre
        (if bit = 1 then H (hashPre ++ siblingHash ++ currentHash)
         else H (hashPre ++ currentHash ++ siblingHash))
        bits rest
  | currentHash, [], siblingHash :: rest =>
      calculateRootHash H hashPre (H (hashPre ++ currentHash ++ siblingHash)) [] rest

/-- The body of `validatePrismProof` (proof_validation.ts), i.e. the
code inside its `try`.  Statements appear in source order; an early
`return false` is `.ok false`, a thrown exception is `.error`. -/
def validatePrismProofE (env : JsEnv) (proof : PrismProof) (key : String)
    (value : List Nat) (expectedRootHashHex : String) : Except String Bool := do
  match proof.leaf with
  | none => return false
  | some leafHex =>
    let keyHash := env.sha256 (env.utf8 key)
    let valueHash := env.sha256 value
    let leafHash := env.sha256 (prismLeafDomSep ++ keyHash ++ valueHash)
    let expectedLeafHash ← hexToBytes leafHex
    if !areArraysEqual leafHash expectedLeafHash then
      return false
    let expectedRootHash ← hexToBytes expectedRootHashHex
    let bits := jsSliceFrom (bytesToBits keyHash).reverse
      ((256 : Int) - proof.siblings.length)
    let sibling_hashes ← proof.siblings.mapM hexToBytes
    let calculatedRootHash :=
      calculateRootHash env.sha256 prismInternalDomSep leafHash bits sibling_hashes
    return areArraysEqual calculatedRootHash expectedRootHash

/-- `validatePrismProof` (proof_validation.ts): the `try`/`catch`
wrapper turning any thrown error into `false`. -/
def validatePrismProof (env : JsEnv) (proof : PrismProof) (key : String)
    (value : List Nat) (expectedRootHashHex : String) : Bool :=
  match validatePrismProofE env proof key value expectedRootHashHex with
  | .ok b => b
  | .error _ => false

/-- The body of `validateCtProof` (proof_validation.ts), i.e. the code
inside its `try`.  `slice(0, n)` on the reversed bit array is `take`. -/
def validateCtProofE (env : JsEnv) (proof : CtMerkleProof) (leafHash : List Nat)
    (expectedRootHash : List Nat) : Except String Bool := do
  let bits := (numberToBits proof.leaf_index).reverse.take proof.audit_path.length
  let sibling_hashes ← proof.audit_path.mapM (base64ToBytes env)
  let calculatedRootHash :=
    calculateRootHash env.sha256 ctNodePre leafHash bits sibling_hashes
  return areArraysEqual calculatedRootHash expectedRootHash

/-- `validateCtProof` (proof_validation.ts): the `try`/`catch` wrapper
turning any thrown error into `false`. -/
def validateCtProof (env : JsEnv) (proof : CtMerkleProof) (leafHash : List Nat)
    (expectedRootHash : List Nat) : Bool :=
  match validateCtProofE env proof leafHash expectedRootHash with
  | .ok b => b
  | .error _ => false

/-! ## ct_parsing.ts -/

/-- Big-endian 8-byte encoding, as `DataView.setBigUint64(-, -, false)`
writes it (the stored value wraps mod `2 ^ 64`). -/
def be64 (n : Nat) : List Nat :=
  (List.range 8).map (fun i => n % 2 ^ 64 / 2 ^ (8 * (7 - i)) % 256)

/-- Little-endian 8-byte encoding, as `DataView.setBigUint64(-, -, true)`
writes it. -/
def le64 (n : Nat) : List Nat :=
  (List.range 8).map (fun i => n % 2 ^ 64 / 2 ^ (8 * i) % 256)

/-- JavaScript `Number(bigint)` for a non-negative integer below
`2 ^ 64`: conversion to an IEEE-754 double, rounding to the nearest
representable value with ties to even.  Below `2 ^ 53` every integer is
representable, so the value is exact; from `2 ^ e ≤ n < 2 ^ (e+1)` with
`e ≥ 53` the representable doubles are the multiples of `2 ^ (e - 52)`,
and the result is always a (mathematical) integer, so the model returns
that integer.  The binade exponent `e` (the floor base-2 logarithm, for
`n < 2 ^ 64`) is computed as one less than the count of powers of two
not exceeding `n`, which kernel evaluation can reduce. -/
def jsNumberOfU64 (n : Nat) : Nat :=
  if n < 2 ^ 53 then n
  else
    let e := ((List.range 64).filter (fun k => 2 ^ k ≤ n)).length - 1
    let ulp := 2 ^ (e - 52)
    let q := n / ulp
    let r := n % ulp
    if 2 * r < ulp then q * ulp
    else if ulp < 2 * r then (q + 1) * ulp
    else if q % 2 = 0 then q * ulp else (q + 1) * ulp

/-- `CtSignedTreeHead` (ct_log_types.ts).  `timestamp` and `treeSize`
hold the source's `Number(view.getBigUint64(-))` values — the u64 read
from the bytes passed through the double rounding of `jsNumberOfU64`. -/
structure CtSignedTreeHead where
  version : Nat
  signatureType : Nat
  timestamp : Nat
  treeSize : Nat
  rootHash : List Nat
  deriving DecidableEq

/-- `DataView.getUint8`: throws `RangeError` outside the view. -/
def getUint8 (bytes : List Nat) (i : Nat) : Except String Nat :=
  if h : i < bytes.length then .ok bytes[i] else .error "RangeError"

/-- `DataView.getBigUint64` (big-endian, the default): reads 8 bytes,
throws `RangeError` if they reach past the view. -/
def getBigUint64 (bytes : List Nat) (i : Nat) : Except String Nat :=
  if i + 8 ≤ bytes.length then
    .ok (((bytes.drop i).take 8).foldl (fun acc b => acc * 256 + b) 0)
  else .error "RangeError"

/-- `sthFromBytes` (ct_parsing.ts).  The two u64 fields pass through
`Number(-)`, i.e. `jsNumberOfU64`; `bytes.slice(18, 50)` never throws;
it truncates to the available bytes. -/
def sthFromBytes (bytes : List Nat) : Except String CtSignedTreeHead := do
  let version ← getUint8 bytes 0
  let signatureType ← getUint8 bytes 1
  let timestamp ← getBigUint64 bytes 2
  let treeSize ← getBigUint64 bytes 10
  let rootHash := (bytes.drop 18).take 32
  return ⟨version, signatureType, jsNumberOfU64 timestamp, jsNumberOfU64 treeSize, rootHash⟩

/-- An X.509 extension as far as `logEntryBytesForPreCert` inspects it:
its OID string. -/
structure AsnExtension where
  extnID : String

/-- A parsed `tbsCertificate` as far as `logEntryBytesForPreCert`
manipulates it: the (optional) extension list it filters, plus the rest
of the parsed object, untouched and opaque. -/
structure ParsedTbs where
  extensions : Option (List AsnExtension)
  opaqueRest : List Nat

/-- The `@peculiar` ASN.1 library calls `ct_parsing.ts` makes, abstracted
(they are external to the repository): parsing a DER certificate
(throwing on malformed input), re-serializing a `tbsCertificate`, and
the parse-then-serialize of an issuer's `subjectPublicKeyInfo`. -/
structure AsnEnv where
  parseCert : List Nat → Option ParsedTbs
  serializeTbs : ParsedTbs → List Nat
  issuerSpki : List Nat → Option (List Nat)

/-- `id_certificateTransparency`: the SCT-list extension OID. -/
def idCertificateTransparency : String := "1.3.6.1.4.1.11129.2.4.2"

/-- The `cert.tbsCertificate.extensions = extensions?.filter(...)`
mutation of `logEntryBytesForPreCert`: drop the CT SCT-list extension,
leaving an absent extension list absent. -/
def filteredTbs (cert : ParsedTbs) : ParsedTbs :=
  { cert with
    extensions := cert.extensions.map
      (List.filter (fun ext => ext.extnID ≠ idCertificateTransparency)) }

/-- `logEntryBytesForPreCert` (ct_parsing.ts).  The source writes into a
pre-allocated `Uint8Array` at strictly increasing offsets; the embedding
is the resulting concatenation, assuming the issuer key hash is 32 bytes
so that the offset bookkeeping matches the writes (the source only
`console.error`s, without aborting, when it is not — the claims about
this function all hypothesise a 32-byte hash).  `sctTimeMs` is
`sct_time.getTime()`; the 3-byte TBS length uses JavaScript's 32-bit
`>>`, and `setUint16` wraps mod `2 ^ 16`. -/
def logEntryBytesForPreCert (env : JsEnv) (asn : AsnEnv) (certDer issuerDer : List Nat)
    (sctTimeMs : Nat) (sctExtensions : List Nat) : Option (List Nat) := do
  let cert ← asn.parseCert certDer
  let tbsCertBytes := asn.serializeTbs (filteredTbs cert)
  let issuerPublicKey ← asn.issuerSpki issuerDer
  let issuerKeyHash := env.sha256 issuerPublicKey
  let tbsLen := tbsCertBytes.length
  return 0x00 ::
    ([0, 0] ++ be64 sctTimeMs ++ [0, 1] ++ issuerKeyHash ++
      [jsShrByte tbsLen 16, jsShrByte tbsLen 8, tbsLen % 256] ++ tbsCertBytes ++
      [sctExtensions.length % 2 ^ 16 / 256, sctExtensions.length % 256] ++ sctExtensions)

/-! ## prism_types.ts and prism_serialization.ts -/

/-- `PrismCryptoAlgorithm` (prism_types.ts). -/
inductive PrismCryptoAlgorithm where
  | ed25519
  | secp256k1
  | secp256r1
  deriving DecidableEq

/-- `PrismCryptoPayload` (prism_types.ts): `bytes` is base64. -/
structure PrismCryptoPayload where
  algorithm : PrismCryptoAlgorithm
  bytes : String

/-- `PrismSignedData` (prism_types.ts): `data` is base64. -/
structure PrismSignedData where
  key : PrismCryptoPayload
  data : String

/-- `PrismServiceChallenge` (prism_types.ts): the `Signed` variant. -/
structure PrismServiceChallenge where
  Signed : PrismCryptoPayload

/-- `PrismAccount` (prism_types.ts). -/
structure PrismAccount where
  id : String
  nonce : Nat
  valid_keys : List PrismCryptoPayload
  signed_data : List PrismSignedData
  service_challenge : Option PrismServiceChallenge

/-- `num64ToBincodeLe` (prism_serialization.ts): `setBigUint64`
little-endian. -/
def num64ToBincodeLe (num : Nat) : List Nat := le64 num

/-- `bytesToBincode` (prism_serialization.ts): 8-byte little-endian
length, then the bytes. -/
def bytesToBincode (bytes : List Nat) : List Nat :=
  num64ToBincodeLe bytes.length ++ bytes

/-- `stringToBincode` (prism_serialization.ts): the UTF-8 bytes,
length-prefixed. -/
def stringToBincode (env : JsEnv) (str : String) : List Nat :=
  bytesToBincode (env.utf8 str)

/-- `cryptoAlgorithmToBincode` (prism_serialization.ts). -/
def cryptoAlgorithmToBincode : PrismCryptoAlgorithm → List Nat
  | .ed25519 => [0, 0, 0, 0]
  | .secp256k1 => [1, 0, 0, 0]
  | .secp256r1 => [2, 0, 0, 0]

/-- `cryptoPayloadToBincode` (prism_serialization.ts); base64 decoding
of the key bytes can throw. -/
def cryptoPayloadToBincode (env : JsEnv) (p : PrismCryptoPayload) :
    Except String (List Nat) := do
  let bytes ← base64ToBytes env p.bytes
  return cryptoAlgorithmToBincode p.algorithm ++ bytesToBincode bytes

/-- `signedDataToBincode` (prism_serialization.ts). -/
def signedDataToBincode (env : JsEnv) (sd : PrismSignedData) :
    Except String (List Nat) := do
  let keyBytes ← cryptoPayloadToBincode env sd.key
  let dataBytes ← base64ToBytes env sd.data
  return keyBytes ++ bytesToBincode dataBytes

/-- `serviceChallengeToBincode` (prism_serialization.ts): the inner
challenge's byte string, length-prefixed, with no variant tag. -/
def serviceChallengeToBincode (env : JsEnv) (c : PrismServiceChallenge) :
    Except String (List Nat) := do
  let bytes ← base64ToBytes env c.Signed.bytes
  return bytesToBincode bytes

/-- `prismAccountToBincode` (prism_serialization.ts). -/
def prismAccountToBincode (env : JsEnv) (account : PrismAccount) :
    Except String (List Nat) := do
  let validKeysBytes ← account.valid_keys.mapM (cryptoPayloadToBincode env)
  let signedDataBytes ← account.signed_data.mapM (signedDataToBincode env)
  let serviceChallengeBytes ←
    match account.service_challenge with
    | some c => serviceChallengeToBincode env c
    | none => pure [0]
  return stringToBincode env account.id ++ num64ToBincodeLe account.nonce ++
    num64ToBincodeLe account.valid_keys.length ++ validKeysBytes.flatten ++
    num64ToBincodeLe account.signed_data.length ++ signedDataBytes.flatten ++
    serviceChallengeBytes

/-! ## background.ts -/

/-- `PrismAccountResponse` (prism_client.ts). -/
structure PrismAccountResponse where
  account : Option PrismAccount
  proof : PrismProof

/-- `queryLogSth` (background.ts), with the two network fetches (the
account response and the commitment hex) supplied as inputs.  The first
component is the function's result (`.error` = a thrown exception); the
second records whether `validatePrismProof` was invoked on the way. -/
def queryLogSth (env : JsEnv) (logId : String) (accountRes : PrismAccountResponse)
    (commitmentHex : String) : Except String CtSignedTreeHead × Bool :=
  match accountRes.account, accountRes.proof.leaf with
  | none, _ => (.error "CT Log not found in prism", false)
  | some _, none => (.error "CT Log not found in prism", false)
  | some account, some _ =>
    if account.signed_data.length ≠ 1 then
      (.error "Incorrect number of prism entries", false)
    else
      match prismAccountToBincode env account with
      | .error e => (.error e, false)
      | .ok prismValue =>
        if !validatePrismProof env accountRes.proof logId prismValue commitmentHex then
          (.error "Invalid Prism proof", true)
        else
          match account.signed_data.head? with
          | none => (.error "unreachable", true)
          | some sd =>
            match base64ToBytes env sd.data with
            | .error e => (.error e, true)
            | .ok bytes => (sthFromBytes bytes, true)

/-- What processing one SCT of the `onHeadersReceived` listener comes to
for the verdict bookkeeping: either the `try` block ran to completion
with a boolean verdict (`validateCtProof`'s result), or some step of it
threw. -/
inductive LogOutcome where
  | ok (verdict : Bool)
  | err
  deriving DecidableEq

/-- The `for (const sct of scts)` loop of the `onHeadersReceived`
listener (background.ts), abstracted over the per-SCT work: each list
entry is `none` when `getLogById` found no log (the loop `continue`s),
or the log's description paired with the outcome of the `try` block.
The result collects the `reportLogVerification` calls in order.  On a
thrown error the `catch` reports `false` for that log and then
`return`s, leaving the loop. -/
def processScts : List (Option (String × LogOutcome)) → List (String × Bool)
  | [] => []
  | none :: rest => processScts rest
  | some (d, .ok b) :: rest => (d, b) :: processScts rest
  | some (d, .err) :: _ => [(d, false)]

/-- Decidable equality of `Except` values (used only to evaluate the
embedding at concrete inputs). -/
instance {ε α : Type} [DecidableEq ε] [DecidableEq α] : DecidableEq (Except ε α) := fun x y =>
  match x, y with
  | .error a, .error b =>
    if h : a = b then .isTrue (by rw [h]) else .isFalse (by intro he; cases he; exact h rfl)
  | .ok a, .ok b =>
    if h : a = b then .isTrue (by rw [h]) else .isFalse (by intro he; cases he; exact h rfl)
  | .error _, .ok _ => .isFalse (by intro h; cases h)
  | .ok _, .error _ => .isFalse (by intro h; cases h)

/-! ## Spec-side definitions

Definitions in this section are written from the specification /
claim wording (`spec` prefix), to be compared with the source
embeddings above. -/

/-- The fold the spec describes for both Merkle verifiers: starting
from `current`, step `i` hashes with the sibling on the left when the
direction bit for step `i` is 1, on the right otherwise, under the
domain tag `tag`. -/
def specFoldDir (H : List Nat → List Nat) (tag : List Nat) (dir : Nat → Nat) :
    List Nat → Nat → List (List Nat) → List Nat
  | current, _, [] => current
  | current, i, sibling :: rest =>
      specFoldDir H tag dir
        (if dir i = 1 then H (tag ++ sibling ++ current)
         else H (tag ++ current ++ sibling))
        (i + 1) rest

/-- The direction formula claim C2 states: step `i` uses bit
`n - 1 - i` of the 64-bit representation of the leaf index, counted
from the least-significant bit upward (`n` = audit path length). -/
def specCtDirClaimed (leafIndex n i : Nat) : Nat :=
  leafIndex % 2 ^ 64 / 2 ^ (n - 1 - i) % 2

/-- The direction `validateCtProof` actually consumes at step `i`: bit
`i % 32` of `leafIndex % 2 ^ 32` for `i < 64` (the JavaScript 32-bit
shift in `numberToBits` mirrors the low four bytes into the high four),
and 0 (sibling on the right) from step 64 on. -/
def specCtDirActual (leafIndex i : Nat) : Nat :=
  if i < 64 then leafIndex % 2 ^ 32 / 2 ^ (i % 32) % 2 else 0

/-- The direction formula claim C3 states: step `i` (0 = leaf-adjacent)
uses bit `n - 1 - i` of the key hash, counting from its
most-significant bit (`n` = sibling count). -/
def specPrismDir (keyHash : List Nat) (n i : Nat) : Nat :=
  (bytesToBits keyHash).getD (n - 1 - i) 0

/-- The leaf hash the spec describes for the sparse proof:
`SHA256(LEAF_DOMAIN_TAG ‖ SHA256(key) ‖ SHA256(value))`. -/
def specPrismLeafHash (env : JsEnv) (key : String) (value : List Nat) : List Nat :=
  env.sha256 (prismLeafDomSep ++ env.sha256 (env.utf8 key) ++ env.sha256 value)

/-- A length-prefixed byte string as the spec's bincode table states it:
an 8-byte little-endian length, then the bytes. -/
def specByteString (bytes : List Nat) : List Nat :=
  le64 bytes.length ++ bytes

/-- A key encoding as claim C5 states it: a 4-byte little-endian
algorithm discriminant (0 = ed25519, 1 = secp256k1, 2 = secp256r1),
then the key's length-prefixed byte string. -/
def specKeyEncoding (a : PrismCryptoAlgorithm) (keyBytes : List Nat) : List Nat :=
  (match a with
   | .ed25519 => [0, 0, 0, 0]
   | .secp256k1 => [1, 0, 0, 0]
   | .secp256r1 => [2, 0, 0, 0]) ++ specByteString keyBytes

/-- The account layout claim C5 states, over already-decoded byte
strings: length-prefixed id, nonce, key count and keys, signed-data
count and entries (key encoding, then payload), then a single zero byte
for an absent service challenge or the challenge's length-prefixed byte
string with no variant tag. -/
def specAccountBincode (idBytes : List Nat) (nonce : Nat)
    (keys : List (PrismCryptoAlgorithm × List Nat))
    (entries : List ((PrismCryptoAlgorithm × List Nat) × List Nat))
    (challenge : Option (List Nat)) : List Nat :=
  specByteString idBytes ++ le64 nonce ++
  le64 keys.length ++ (keys.map (fun k => specKeyEncoding k.1 k.2)).flatten ++
  le64 entries.length ++
  (entries.map (fun e => specKeyEncoding e.1.1 e.1.2 ++ specByteString e.2)).flatten ++
  (match challenge with
   | none => [0]
   | some cb => specByteString cb)

/-- Decode one `PrismCryptoPayload`'s base64 field (for stating claim
C5's hypotheses). -/
def decodePayload (env : JsEnv) (p : PrismCryptoPayload) :
    Option (PrismCryptoAlgorithm × List Nat) :=
  (env.atob p.bytes).map (fun b => (p.algorithm, b))

/-- Decode one `PrismSignedData`'s base64 fields. -/
def decodeSignedData (env : JsEnv) (sd : PrismSignedData) :
    Option ((PrismCryptoAlgorithm × List Nat) × List Nat) :=
  (decodePayload env sd.key).bind (fun k => (env.atob sd.data).map (fun d => (k, d)))

/-- Decode an optional service challenge: `some none` when absent,
`some (some bytes)` when present and decodable, `none` when its base64
is malformed. -/
def decodeChallenge (env : JsEnv) : Option PrismServiceChallenge → Option (Option (List Nat))
  | none => some none
  | some c => (env.atob c.Signed.bytes).map some

/-! ## A concrete environment for witnesses and counterexamples

The theorems below hold for every `JsEnv`; their witnesses and the
counterexamples evaluate them at this small executable one.  Its hash
returns 32 bytes and is sensitive to the order of its input bytes,
which is all the concrete instances need. -/

/-- A 32-byte, order-sensitive stand-in digest. -/
def hashW (l : List Nat) : List Nat :=
  List.replicate 31 0 ++ [l.foldl (fun a b => (2 * a + b + 1) % 251) 7]

/-- Concrete environment: `atob` reads characters below 256 off as
bytes and fails otherwise; `utf8` likewise truncates code points. -/
def envW : JsEnv where
  sha256 := hashW
  atob := fun s =>
    if s.data.all (fun c => c.toNat < 256) then some (s.data.map Char.toNat) else none
  utf8 := fun s => s.data.map (fun c => c.toNat % 256)

/-- Concrete ASN.1 environment for witnesses: a parser returning a
fixed certificate carrying the CT extension plus one other, and a
serializer exposing the surviving extension count. -/
def asnW : AsnEnv where
  parseCert := fun _ => some ⟨some [⟨idCertificateTransparency⟩, ⟨"other"⟩], [9]⟩
  serializeTbs := fun tbs =>
    tbs.opaqueRest ++ (match tbs.extensions with | some l => [l.length] | none => [])
  issuerSpki := fun l => some l

/-! ## Helper lemmas for the hex codec -/

/-- `zip` of a list with itself satisfies pointwise equality. -/
theorem zipSelfAll (a : List Nat) : (List.zip a a).all (fun p => p.1 == p.2) = true := by
  induction a with
  | nil => rfl
  | cons x xs ih => simpa using ih

/-- `areArraysEqual` decides list equality. -/
theorem areArraysEqual_iff (a b : List Nat) : areArraysEqual a b = true ↔ a = b := by
  constructor
  · intro h
    rw [areArraysEqual] at h
    split at h
    · cases h
    · rename_i hlen
      push_neg at hlen
      apply List.ext_getElem hlen
      intro i h1 h2
      have hmem := List.all_eq_true.mp h (a[i], b[i]) ?_
      · simpa using hmem
      · rw [List.mem_iff_getElem]
        exact ⟨i, by rw [List.length_zip]; omega, by simp⟩
  · rintro rfl
    rw [areArraysEqual, if_neg (by simp)]
    exact zipSelfAll a

/-- The spec fold only depends on the direction values it consumes. -/
theorem specFoldDir_congr (H : List Nat → List Nat) (tag : List Nat)
    (d1 d2 : Nat → Nat) :
    ∀ (siblings : List (List Nat)) (cur : List Nat) (i0 : Nat),
    (∀ k, k < siblings.length → d1 (i0 + k) = d2 (i0 + k)) →
    specFoldDir H tag d1 cur i0 siblings = specFoldDir H tag d2 cur i0 siblings := by
  intro siblings
  induction siblings with
  | nil => intro cur i0 h; rfl
  | cons s rest ih =>
    intro cur i0 h
    rw [specFoldDir, specFoldDir]
    have h0 : d1 i0 = d2 i0 := by simpa using h 0 (by simp)
    rw [h0]
    apply ih
    intro k hk
    have hk1 := h (k + 1) (by simp; omega)
    have he : i0 + 1 + k = i0 + (k + 1) := by omega
    rw [he]
    exact hk1

/-- Shifting the spec fold's starting index into the direction map. -/
theorem specFoldDir_shift (H : List Nat → List Nat) (tag : List Nat) (d : Nat → Nat) :
    ∀ (siblings : List (List Nat)) (cur : List Nat) (i0 : Nat),
    specFoldDir H tag d cur (i0 + 1) siblings =
      specFoldDir H tag (fun j => d (j + 1)) cur i0 siblings := by
  intro siblings
  induction siblings with
  | nil => intro cur i0; rfl
  | cons s rest ih =>
    intro cur i0
    rw [specFoldDir, specFoldDir]
    exact ih _ (i0 + 1)

/-- The source loop `calculateRootHash` is the spec fold driven by the
direction list (with 0 — sibling on the right — beyond its end). -/
theorem calculateRootHash_eq_specFold (H : List Nat → List Nat) (tag : List Nat) :
    ∀ (siblings : List (List Nat)) (bits : List Nat) (cur : List Nat),
    calculateRootHash H tag cur bits siblings =
      specFoldDir H tag (fun j => bits.getD j 0) cur 0 siblings := by
  intro siblings
  induction siblings with
  | nil => intro bits cur; cases bits <;> rfl
  | cons s rest ih =>
    intro bits cur
    cases bits with
    | nil =>
      rw [calculateRootHash, specFoldDir]
      rw [if_neg (by simp [List.getD_nil])]
      rw [ih []]
      rw [show (0 : Nat) + 1 = 0 + 1 from rfl]
      rw [specFoldDir_shift]
      rfl
    | cons b bs =>
      rw [calculateRootHash, specFoldDir]
      have hd0 : (b :: bs).getD 0 0 = b := rfl
      rw [hd0, ih bs]
      rw [show (0 : Nat) + 1 = 0 + 1 from rfl]
      rw [specFoldDir_shift]
      apply specFoldDir_congr
      intro k hk
      simp [List.getD_cons_succ]

/-! ## Helper lemmas for the bit conventions -/

/-- JavaScript's `(num >> k) & 0xff` as plain division: reduce the
operand mod `2 ^ 32` and the shift mod 32 (valid for masked shifts up
to 24, where the sign extension is a multiple of 256). -/
theorem jsShrByte_eq (n k : Nat) (h : k % 32 ≤ 24) :
    jsShrByte n k = n % 2 ^ 32 / 2 ^ (k % 32) % 256 := by
  rw [jsShrByte, toInt32]
  set m := n % 2 ^ 32 with hm
  set j := k % 32 with hj
  have hcast : ((2 : Int) ^ j) = ((2 ^ j : Nat) : Int) := by push_cast; ring
  by_cases hlt : m < 2 ^ 31
  · rw [if_pos hlt, hcast]
    rw [show ((m : Int) / ((2 ^ j : Nat) : Int)) = ((m / 2 ^ j : Nat) : Int) from by
      exact_mod_cast rfl]
    rw [show (((m / 2 ^ j : Nat) : Int) % 256) = ((m / 2 ^ j % 256 : Nat) : Int) from by
      exact_mod_cast rfl]
    exact Int.toNat_natCast _
  · rw [if_neg hlt, hcast]
    have hsplit : ((m : Int) - 2 ^ 32) =
        (m : Int) + (-(2 ^ (32 - j) : Int)) * ((2 ^ j : Nat) : Int) := by
      push_cast
      rw [neg_mul, ← pow_add]
      have hj32 : 32 - j + j = 32 := by omega
      rw [hj32]
      ring
    rw [hsplit, Int.add_mul_ediv_right _ _ (by positivity)]
    rw [Int.add_emod]
    have hdvd : ((256 : Int)) ∣ (-(2 ^ (32 - j) : Int)) := by
      apply Dvd.dvd.neg_right
      have h8 : (256 : Int) = 2 ^ 8 := by norm_num
      rw [h8]
      exact pow_dvd_pow 2 (by omega)
    rw [Int.emod_eq_zero_of_dvd hdvd]
    rw [add_zero, Int.emod_emod_of_dvd _ dvd_rfl]
    rw [show ((m : Int) / ((2 ^ j : Nat) : Int)) = ((m / 2 ^ j : Nat) : Int) from by
      exact_mod_cast rfl]
    rw [show (((m / 2 ^ j : Nat) : Int) % 256) = ((m / 2 ^ j % 256 : Nat) : Int) from by
      exact_mod_cast rfl]
    exact Int.toNat_natCast _

/-- `testBit` through division by a power of two. -/
theorem testBit_div_two_pow (x n i : Nat) : (x / 2 ^ n).testBit i = x.testBit (n + i) := by
  rw [← Nat.shiftRight_eq_div_pow, Nat.testBit_shiftRight]

/-- Extracting bit `t` of the byte `m / 2 ^ s % 256` reads bit `s + t`
of `m`. -/
theorem div_pow_mod256_bit (m s t : Nat) (ht : t ≤ 7) :
    m / 2 ^ s % 256 / 2 ^ t % 2 = m / 2 ^ (s + t) % 2 := by
  have h1 : m / 2 ^ s % 256 / 2 ^ t % 2 = 1 ↔ m / 2 ^ (s + t) % 2 = 1 := by
    rw [← decide_eq_decide]
    have h256 : (256 : Nat) = 2 ^ 8 := by norm_num
    calc decide (m / 2 ^ s % 256 / 2 ^ t % 2 = 1)
        = (m / 2 ^ s % 256).testBit t := (Nat.testBit_to_div_mod).symm
      _ = (m / 2 ^ s % 2 ^ 8).testBit t := by rw [h256]
      _ = (decide (t < 8) && (m / 2 ^ s).testBit t) := Nat.testBit_mod_two_pow _ 8 t
      _ = (m / 2 ^ s).testBit t := by rw [decide_eq_true (by omega : t < 8), Bool.true_and]
      _ = m.testBit (s + t) := testBit_div_two_pow m s t
      _ = decide (m / 2 ^ (s + t) % 2 = 1) := Nat.testBit_to_div_mod
  have h2 : m / 2 ^ s % 256 / 2 ^ t % 2 < 2 := Nat.mod_lt _ (by norm_num)
  have h3 : m / 2 ^ (s + t) % 2 < 2 := Nat.mod_lt _ (by norm_num)
  omega

/-- `bytesToBits` yields 8 bits per byte. -/
theorem bytesToBits_length (bytes : List Nat) :
    (bytesToBits bytes).length = 8 * bytes.length := by
  induction bytes with
  | nil => rfl
  | cons b bs ih =>
    simp only [bytesToBits, List.map_cons, List.flatten_cons] at ih ⊢
    rw [List.length_append, ih]
    simp [List.length_map]
    omega

/-- Entry `j` of `bytesToBits` is bit `7 - j % 8` of byte `j / 8`. -/
theorem bytesToBits_getD (bytes : List Nat) (j : Nat) (h : j < 8 * bytes.length) :
    (bytesToBits bytes).getD j 0 = bytes.getD (j / 8) 0 / 2 ^ (7 - j % 8) % 2 := by
  induction bytes generalizing j with
  | nil => simp at h
  | cons b bs ih =>
    simp only [bytesToBits, List.map_cons, List.flatten_cons]
    by_cases hj : j < 8
    · rw [List.getD_append _ _ _ _ (by simp [List.length_map]; omega)]
      have hj8 : j / 8 = 0 := by omega
      have hjm : j % 8 = j := by omega
      rw [hj8, hjm]
      have hentry : ((List.range 8).map (fun j => b / 2 ^ (7 - j) % 2)).getD j 0 =
          b / 2 ^ (7 - j) % 2 := by
        interval_cases j <;> rfl
      rw [hentry]
      rfl
    · push_neg at hj
      rw [List.getD_append_right _ _ _ _ (by simp [List.length_map]; omega)]
      have hlen : ((List.range 8).map (fun j => b / 2 ^ (7 - j) % 2)).length = 8 := by
        simp [List.length_map]
      rw [hlen]
      have hrec := ih (j - 8) (by simp at h ⊢; omega)
      simp only [bytesToBits] at hrec
      rw [hrec]
      have e1 : (j - 8) / 8 = j / 8 - 1 := by omega
      have e2 : (j - 8) % 8 = j % 8 := by omega
      rw [e1, e2]
      have e3 : (b :: bs).getD (j / 8) 0 = bs.getD (j / 8 - 1) 0 := by
        have hsucc : j / 8 = (j / 8 - 1) + 1 := by omega
        rw [hsucc, List.getD_cons_succ]
        congr 1
      rw [e3]

/-- Byte `a` of `numberToBytes`. -/
theorem numberToBytes_getD (n a : Nat) (ha : a < 8) :
    (numberToBytes n).getD a 0 = n % 2 ^ 32 / 2 ^ ((56 - a * 8) % 32) % 256 := by
  rw [numberToBytes]
  have hentry : ((List.range 8).map (fun i => jsShrByte n (56 - i * 8))).getD a 0 =
      jsShrByte n (56 - a * 8) := by interval_cases a <;> rfl
  rw [hentry, jsShrByte_eq _ _ (by omega)]

/-- `numberToBits` always yields 64 entries. -/
theorem numberToBits_length (n : Nat) : (numberToBits n).length = 64 := by
  rw [numberToBits, bytesToBits_length]
  rfl

/-- Entry `i` of the reversed `numberToBits` array: bit `i % 32` of
`n % 2 ^ 32` — the mirror effect of the 32-bit shifts. -/
theorem numberToBits_reverse_getD (n i : Nat) (hi : i < 64) :
    (numberToBits n).reverse.getD i 0 = n % 2 ^ 32 / 2 ^ (i % 32) % 2 := by
  have hlen : (numberToBits n).length = 64 := numberToBits_length n
  have hrev : (numberToBits n).reverse.getD i 0 = (numberToBits n).getD (63 - i) 0 := by
    rw [List.getD_eq_getElem _ _ (by rw [List.length_reverse, hlen]; omega),
      List.getElem_reverse,
      List.getD_eq_getElem _ _ (by rw [hlen]; omega)]
    congr 1
  have hbits : (numberToBits n).getD (63 - i) 0 =
      (numberToBytes n).getD ((63 - i) / 8) 0 / 2 ^ (7 - (63 - i) % 8) % 2 := by
    rw [numberToBits]
    exact bytesToBits_getD _ _ (by rw [show (numberToBytes n).length = 8 from rfl]; omega)
  have hbyte := numberToBytes_getD n ((63 - i) / 8) (by omega)
  rw [hrev, hbits, hbyte, div_pow_mod256_bit _ _ _ (by omega)]
  have hexp : (56 - (63 - i) / 8 * 8) % 32 + (7 - (63 - i) % 8) = i % 32 := by omega
  rw [hexp]

/-- A successful `mapM` preserves length. -/
theorem mapM_ok_length {α β : Type} (f : α → Except String β) :
    ∀ (l : List α) (r : List β), l.mapM f = .ok r → r.length = l.length := by
  intro l
  induction l with
  | nil =>
    intro r h
    simp only [List.mapM_nil, pure, Except.pure, Except.ok.injEq] at h
    simp [← h]
  | cons a rest ih =>
    intro r h
    rw [List.mapM_cons] at h
    cases hfa : f a with
    | error e => rw [hfa] at h; simp [bind, Except.bind] at h
    | ok b =>
      rw [hfa] at h
      simp only [bind, Except.bind] at h
      cases hrest : rest.mapM f with
      | error e => rw [hrest] at h; simp at h
      | ok bs =>
        rw [hrest] at h
        simp only [pure, Except.pure, Except.ok.injEq] at h
        subst h
        simp [ih bs hrest]

/-- `getD` through `reverse`. -/
theorem reverse_getD (l : List Nat) (j : Nat) (hj : j < l.length) :
    l.reverse.getD j 0 = l.getD (l.length - 1 - j) 0 := by
  rw [List.getD_eq_getElem _ _ (by rw [List.length_reverse]; omega),
    List.getElem_reverse,
    List.getD_eq_getElem _ _ (by omega)]

/-- Direction entry `k` consumed by `validateCtProof`. -/
theorem ctBits_getD (idx n k : Nat) (hk : k < n) :
    ((numberToBits idx).reverse.take n).getD k 0 = specCtDirActual idx k := by
  rw [specCtDirActual]
  by_cases h64 : k < 64
  · rw [if_pos h64]
    rw [List.getD_eq_getElem?_getD, List.getElem?_take_of_lt hk, ← List.getD_eq_getElem?_getD]
    exact numberToBits_reverse_getD idx k h64
  · rw [if_neg h64]
    apply List.getD_eq_default
    rw [List.length_take, List.length_reverse, numberToBits_length]
    omega

/-- Direction entry `k` consumed by `validatePrismProof` is bit
`n - 1 - k` of the key hash counted from its most-significant bit. -/
theorem prismBits_getD (keyHash : List Nat) (hlen : keyHash.length = 32)
    (n k : Nat) (hn : n ≤ 256) (hk : k < n) :
    ((bytesToBits keyHash).reverse.drop (256 - n)).getD k 0 = specPrismDir keyHash n k := by
  have hblen : (bytesToBits keyHash).length = 256 := by
    rw [bytesToBits_length, hlen]
  rw [List.getD_eq_getElem?_getD, List.getElem?_drop, ← List.getD_eq_getElem?_getD]
  rw [reverse_getD _ _ (by omega)]
  rw [specPrismDir]
  congr 1
  omega

/-! ## Claims C1, C7, C8 -/

/-- Claim C1 (code bug): the claim says a per-log failure records a
false verdict for that log and never stops iteration over the other
logs of the same certificate.  The code does record the false verdict,
but the `catch` block then executes `return;`, leaving the listener:
with two known logs where the first one's verification throws, the
second log gets no verdict at all. -/
theorem claim_C1_bug :
    processScts [some ("Log A", .err), some ("Log B", .ok true)] = [("Log A", false)] ∧
    ¬ ∃ v, ("Log B", v) ∈ processScts [some ("Log A", .err), some ("Log B", .ok true)] := by
  decide

/-- Claim C7 (code bug): `numberToBits` is documented to produce the
64-bit big-endian bit array of its argument, but JavaScript's `>>`
reduces shift counts mod 32, so the high four bytes mirror the low
four: `numberToBits(5)` is the bit array of `[0,0,0,5,0,0,0,5]`, not of
`[0,0,0,0,0,0,0,5]` as the claim (and the function's own doc comment)
state. -/
theorem claim_C7_bug :
    numberToBits 5 = bytesToBits [0, 0, 0, 5, 0, 0, 0, 5] ∧
    numberToBits 5 ≠ bytesToBits [0, 0, 0, 0, 0, 0, 0, 5] := by decide

/-- Claim C8 counterexample: an 18-byte input (shorter than 50 bytes)
does not fail; `sthFromBytes` returns a tree head with an empty,
truncated root hash, because `bytes.slice(18, 50)` never throws. -/
theorem claim_C8_counterexample :
    sthFromBytes (List.replicate 18 0) = .ok ⟨0, 0, 0, 0, []⟩ := by rfl

/-- Claim C8 (amended): `sthFromBytes` fails (with a `RangeError` from
`DataView`) exactly on inputs shorter than 18 bytes; on any input of at
least 18 bytes it returns the version byte 0, signature-type byte 1,
the big-endian u64s at `[2,10)` and `[10,18)` as passed through
JavaScript's `Number(-)` double rounding (exact below `2 ^ 53`, third
conjunct), and as root hash the bytes `[18,50)` — truncated to what is
available when the input is shorter than 50 bytes. -/
theorem claim_C8 (bytes : List Nat) :
    (bytes.length < 18 → ∃ e, sthFromBytes bytes = .error e) ∧
    (18 ≤ bytes.length →
      sthFromBytes bytes = .ok
        ⟨bytes.getD 0 0, bytes.getD 1 0,
         jsNumberOfU64 (((bytes.drop 2).take 8).foldl (fun acc b => acc * 256 + b) 0),
         jsNumberOfU64 (((bytes.drop 10).take 8).foldl (fun acc b => acc * 256 + b) 0),
         (bytes.drop 18).take 32⟩) ∧
    (∀ n : Nat, n < 2 ^ 53 → jsNumberOfU64 n = n) := by
  refine ⟨?_, ?_, fun n hn => by rw [jsNumberOfU64, if_pos hn]⟩
  · intro hlen
    simp only [sthFromBytes, getUint8, getBigUint64, bind, Except.bind]
    by_cases h0 : 0 < bytes.length
    · simp only [dif_pos h0]
      by_cases h1 : 1 < bytes.length
      · simp only [dif_pos h1]
        by_cases h2 : 2 + 8 ≤ bytes.length
        · simp only [if_pos h2]
          have h3 : ¬ (10 + 8 ≤ bytes.length) := by omega
          simp only [if_neg h3]
          exact ⟨_, rfl⟩
        · simp only [if_neg h2]; exact ⟨_, rfl⟩
      · simp only [dif_neg h1]; exact ⟨_, rfl⟩
    · simp only [dif_neg h0]; exact ⟨_, rfl⟩
  · intro hlen
    have h0 : 0 < bytes.length := by omega
    have h1 : 1 < bytes.length := by omega
    have h2 : 2 + 8 ≤ bytes.length := by omega
    have h3 : 10 + 8 ≤ bytes.length := by omega
    simp only [sthFromBytes, getUint8, getBigUint64, bind, Except.bind,
      dif_pos h0, dif_pos h1, if_pos h2, if_pos h3]
    rw [List.getD_eq_getElem bytes 0 h0, List.getD_eq_getElem bytes 0 h1]
    rfl

/-- Witness for `claim_C8` at a concrete 50-byte input.  The u64 at
`[2,10)` is `0x0101010101010101` = 72340172838076673, whose `Number(-)`
conversion rounds down to 72340172838076672 (the nearest even multiple
of its 16-unit double spacing). -/
theorem claim_C8_witness :
    18 ≤ (List.replicate 50 1 : List Nat).length ∧
      sthFromBytes (List.replicate 50 1) =
        .ok ⟨1, 1, 72340172838076672, 72340172838076672, List.replicate 32 1⟩ :=
  ⟨by decide, by exact (claim_C8 (List.replicate 50 1)).2.1 (by decide)⟩

/-! ## Claim C5 -/

/-- The spec's key encoding agrees with the source's two encoders. -/
theorem specKeyEncoding_eq (a : PrismCryptoAlgorithm) (b : List Nat) :
    specKeyEncoding a b = cryptoAlgorithmToBincode a ++ bytesToBincode b := by
  cases a <;> rfl

/-- A successful `Option` `mapM` preserves length. -/
theorem mapM_option_length {α β : Type} (f : α → Option β) :
    ∀ (l : List α) (r : List β), l.mapM f = some r → r.length = l.length := by
  intro l
  induction l with
  | nil =>
    intro r h
    simp only [List.mapM_nil, pure, Option.some.injEq] at h
    simp [← h]
  | cons a rest ih =>
    intro r h
    rw [List.mapM_cons] at h
    cases hfa : f a with
    | none => rw [hfa] at h; simp [bind, Option.bind] at h
    | some b =>
      rw [hfa] at h
      simp only [bind, Option.bind] at h
      cases hrest : rest.mapM f with
      | none => rw [hrest] at h; simp at h
      | some bs =>
        rw [hrest] at h
        simp only [pure, Option.some.injEq] at h
        subst h
        simp [ih bs hrest]

/-- Decoded keys serialize to the spec's key encodings. -/
theorem mapM_payload_ok (env : JsEnv) :
    ∀ (ks : List PrismCryptoPayload) (keys : List (PrismCryptoAlgorithm × List Nat)),
    ks.mapM (decodePayload env) = some keys →
    ks.mapM (cryptoPayloadToBincode env) =
      .ok (keys.map (fun k => specKeyEncoding k.1 k.2)) := by
  intro ks
  induction ks with
  | nil =>
    intro keys h
    simp only [List.mapM_nil, pure, Option.some.injEq] at h
    subst h
    rfl
  | cons p rest ih =>
    intro keys h
    rw [List.mapM_cons] at h
    cases ha : env.atob p.bytes with
    | none => rw [decodePayload, ha] at h; simp [bind, Option.bind] at h
    | some b =>
      rw [decodePayload, ha] at h
      cases hrest : rest.mapM (decodePayload env) with
      | none => rw [hrest] at h; simp at h
      | some ks2 =>
        rw [hrest] at h
        simp only [Option.map_some', bind, Option.bind, pure, Option.some.injEq] at h
        subst h
        rw [List.mapM_cons]
        have hp : cryptoPayloadToBincode env p =
            .ok (specKeyEncoding p.algorithm b) := by
          rw [cryptoPayloadToBincode, specKeyEncoding_eq]
          simp [bind, Except.bind, base64ToBytes, ha, pure, Except.pure]
        rw [hp]
        simp only [bind, Except.bind]
        rw [ih ks2 hrest]
        simp [pure, Except.pure]

/-- Decoded signed-data entries serialize to the spec's entry
encodings. -/
theorem mapM_signedData_ok (env : JsEnv) :
    ∀ (sds : List PrismSignedData)
      (entries : List ((PrismCryptoAlgorithm × List Nat) × List Nat)),
    sds.mapM (decodeSignedData env) = some entries →
    sds.mapM (signedDataToBincode env) =
      .ok (entries.map (fun e => specKeyEncoding e.1.1 e.1.2 ++ specByteString e.2)) := by
  intro sds
  induction sds with
  | nil =>
    intro entries h
    simp only [List.mapM_nil, pure, Option.some.injEq] at h
    subst h
    rfl
  | cons sd rest ih =>
    intro entries h
    rw [List.mapM_cons] at h
    cases hak : env.atob sd.key.bytes with
    | none =>
      rw [decodeSignedData, decodePayload, hak] at h
      simp [bind, Option.bind] at h
    | some kb =>
      cases had : env.atob sd.data with
      | none =>
        rw [decodeSignedData, decodePayload, hak, had] at h
        simp [bind, Option.bind] at h
      | some db =>
        rw [decodeSignedData, decodePayload, hak, had] at h
        cases hrest : rest.mapM (decodeSignedData env) with
        | none => rw [hrest] at h; simp at h
        | some es2 =>
          rw [hrest] at h
          simp only [Option.map_some', Option.bind_some, bind, Option.bind, pure,
            Option.some.injEq] at h
          subst h
          rw [List.mapM_cons]
          have hsd : signedDataToBincode env sd =
              .ok (specKeyEncoding sd.key.algorithm kb ++ specByteString db) := by
            rw [signedDataToBincode, specKeyEncoding_eq, cryptoPayloadToBincode]
            simp [bind, Except.bind, base64ToBytes, hak, had, pure, Except.pure,
              specByteString, bytesToBincode, num64ToBincodeLe]
          rw [hsd]
          simp only [bind, Except.bind]
          rw [ih es2 hrest]
          simp [pure, Except.pure]

/-- Claim C5 (confirmed): for every account whose base64 fields decode,
the serializer produces exactly the spec's layout — length-prefixed
UTF-8 id, 8-byte little-endian nonce, key count and keys (4-byte
little-endian discriminant, then length-prefixed bytes), signed-data
count and entries (key encoding, then length-prefixed payload), and a
single zero byte for an absent service challenge or the challenge's
length-prefixed byte string, with no variant tag, when present. -/
theorem claim_C5 (env : JsEnv) (account : PrismAccount)
    (keys : List (PrismCryptoAlgorithm × List Nat))
    (entries : List ((PrismCryptoAlgorithm × List Nat) × List Nat))
    (challenge : Option (List Nat))
    (hk : account.valid_keys.mapM (decodePayload env) = some keys)
    (hs : account.signed_data.mapM (decodeSignedData env) = some entries)
    (hc : decodeChallenge env account.service_challenge = some challenge) :
    prismAccountToBincode env account =
      .ok (specAccountBincode (env.utf8 account.id) account.nonce keys entries challenge) := by
  rw [prismAccountToBincode]
  rw [mapM_payload_ok env _ _ hk, mapM_signedData_ok env _ _ hs]
  simp only [bind, Except.bind]
  have hlk := mapM_option_length _ _ _ hk
  have hls := mapM_option_length _ _ _ hs
  cases hcc : account.service_challenge with
  | none =>
    rw [hcc, decodeChallenge] at hc
    simp only [Option.some.injEq] at hc
    subst hc
    dsimp only
    simp only [pure, Except.pure, Except.ok.injEq]
    rw [specAccountBincode, hlk, hls]
    rfl
  | some c =>
    rw [hcc, decodeChallenge] at hc
    cases hac : env.atob c.Signed.bytes with
    | none => rw [hac] at hc; simp at hc
    | some cb =>
      rw [hac] at hc
      simp only [Option.map_some', Option.some.injEq] at hc
      subst hc
      have hchal : serviceChallengeToBincode env c = .ok (specByteString cb) := by
        simp [serviceChallengeToBincode, bind, Except.bind, base64ToBytes, hac, pure,
          Except.pure, specByteString, bytesToBincode, num64ToBincodeLe]
      dsimp only
      rw [hchal]
      simp only [pure, Except.pure, Except.ok.injEq]
      rw [specAccountBincode, hlk, hls]
      rfl

/-- Witness for `claim_C5` at a concrete one-key, one-entry account. -/
theorem claim_C5_witness :
    prismAccountToBincode envW
        ⟨"A", 3, [⟨PrismCryptoAlgorithm.ed25519, ""⟩],
          [⟨⟨PrismCryptoAlgorithm.secp256k1, ""⟩, ""⟩], none⟩ =
      .ok (specAccountBincode (envW.utf8 "A") 3 [(PrismCryptoAlgorithm.ed25519, [])]
        [((PrismCryptoAlgorithm.secp256k1, []), [])] none) :=
  claim_C5 envW
    ⟨"A", 3, [⟨PrismCryptoAlgorithm.ed25519, ""⟩],
      [⟨⟨PrismCryptoAlgorithm.secp256k1, ""⟩, ""⟩], none⟩
    [(PrismCryptoAlgorithm.ed25519, [])] [((PrismCryptoAlgorithm.secp256k1, []), [])] none
    (by decide) (by decide) (by decide)

/-! ## Claim C6 -/

/-- Claim C6 (confirmed): for every parseable certificate and issuer,
timestamp below `2 ^ 64` (embedded as the wrapped value), extensions of
at most 65535 bytes, and a 32-byte issuer key hash (under which the
sequential buffer writes are exactly a concatenation), the
pre-certificate leaf-bytes builder returns one literal zero byte, then
version byte 0, leaf-type byte 0, the 8-byte big-endian timestamp, the
2-byte big-endian entry type 1, the issuer key hash, the 3-byte
big-endian TBS length then the re-serialized (CT-extension-filtered)
TBS bytes, and the 2-byte big-endian extension length then the
extension bytes; in particular the output begins `0x00 0x00 0x00`. -/
theorem claim_C6 (env : JsEnv) (asn : AsnEnv) (certDer issuerDer : List Nat)
    (sctTimeMs : Nat) (ext : List Nat) (cert : ParsedTbs) (spki : List Nat)
    (hparse : asn.parseCert certDer = some cert)
    (hspki : asn.issuerSpki issuerDer = some spki)
    (_hhash : (env.sha256 spki).length = 32)
    (hext : ext.length ≤ 65535)
    (htbs : (asn.serializeTbs (filteredTbs cert)).length < 2 ^ 24) :
    logEntryBytesForPreCert env asn certDer issuerDer sctTimeMs ext =
      some (0 :: 0 :: 0 ::
        (be64 sctTimeMs ++ [0, 1] ++ env.sha256 spki ++
          [(asn.serializeTbs (filteredTbs cert)).length / 2 ^ 16,
           (asn.serializeTbs (filteredTbs cert)).length / 2 ^ 8 % 256,
           (asn.serializeTbs (filteredTbs cert)).length % 256] ++
          asn.serializeTbs (filteredTbs cert) ++
          [ext.length / 2 ^ 8, ext.length % 256] ++ ext)) := by
  rw [logEntryBytesForPreCert]
  simp only [hparse, hspki, Option.bind_some, bind, Option.bind]
  congr 1
  have hm : (asn.serializeTbs (filteredTbs cert)).length % 2 ^ 32 =
      (asn.serializeTbs (filteredTbs cert)).length := Nat.mod_eq_of_lt (by omega)
  have h16 : jsShrByte (asn.serializeTbs (filteredTbs cert)).length 16 =
      (asn.serializeTbs (filteredTbs cert)).length / 2 ^ 16 := by
    rw [jsShrByte_eq _ _ (by norm_num)]
    have e1 : (16 : Nat) % 32 = 16 := by norm_num
    rw [e1, hm]
    exact Nat.mod_eq_of_lt (by omega)
  have h8 : jsShrByte (asn.serializeTbs (filteredTbs cert)).length 8 =
      (asn.serializeTbs (filteredTbs cert)).length / 2 ^ 8 % 256 := by
    rw [jsShrByte_eq _ _ (by norm_num)]
    have e1 : (8 : Nat) % 32 = 8 := by norm_num
    rw [e1, hm]
  have hextl : ext.length % 2 ^ 16 / 256 = ext.length / 2 ^ 8 := by
    rw [Nat.mod_eq_of_lt (by omega)]
    rfl
  rw [h16, h8, hextl]
  simp [List.append_assoc]

/-- Witness for `claim_C6` at a concrete environment and inputs. -/
theorem claim_C6_witness :
    logEntryBytesForPreCert envW asnW [1] [2, 2] 5 [7] =
      some [0, 0, 0, 0, 0, 0, 0, 0, 0, 0, 5, 0, 1,
        0, 0, 0, 0, 0, 0, 0, 0, 0, 0, 0, 0, 0, 0, 0, 0, 0, 0, 0,
        0, 0, 0, 0, 0, 0, 0, 0, 0, 0, 0, 0, 37,
        0, 0, 2, 9, 1, 0, 1, 7] := by
  have h := claim_C6 envW asnW [1] [2, 2] 5 [7]
    ⟨some [⟨idCertificateTransparency⟩, ⟨"other"⟩], [9]⟩ [2, 2]
    rfl rfl (by decide) (by decide) (by decide)
  exact h

/-! ## Claim C9 -/

/-- Claim C9 (confirmed): when the fetched account's signed-data list
does not have exactly one entry, `queryLogSth` throws before any
sparse-proof verification (`validatePrismProof` is never invoked —
second component `false`), and a per-log error in the listener loop
yields a false verdict for that log. -/
theorem claim_C9 (env : JsEnv) (logId : String) (accountRes : PrismAccountResponse)
    (commitmentHex : String) (account : PrismAccount)
    (haccount : accountRes.account = some account)
    (hbad : account.signed_data.length ≠ 1) :
    (∃ e, (queryLogSth env logId accountRes commitmentHex).1 = .error e) ∧
    (queryLogSth env logId accountRes commitmentHex).2 = false ∧
    (∀ (d : String) (rest : List (Option (String × LogOutcome))),
      (d, false) ∈ processScts (some (d, .err) :: rest)) := by
  have hmain : (∃ e, (queryLogSth env logId accountRes commitmentHex).1 = .error e) ∧
      (queryLogSth env logId accountRes commitmentHex).2 = false := by
    rw [queryLogSth, haccount]
    cases hleaf : accountRes.proof.leaf with
    | none => exact ⟨⟨_, rfl⟩, rfl⟩
    | some leafHex =>
      dsimp only
      rw [if_pos hbad]
      exact ⟨⟨_, rfl⟩, rfl⟩
  exact ⟨hmain.1, hmain.2, fun d rest => by simp [processScts]⟩

/-- Witness for `claim_C9` at a concrete account with no signed-data
entries. -/
theorem claim_C9_witness :
    (∃ e, (queryLogSth envW "log" ⟨some ⟨"", 0, [], [], none⟩, ⟨none, []⟩⟩ "").1 = .error e) ∧
    (queryLogSth envW "log" ⟨some ⟨"", 0, [], [], none⟩, ⟨none, []⟩⟩ "").2 = false ∧
    (∀ (d : String) (rest : List (Option (String × LogOutcome))),
      (d, false) ∈ processScts (some (d, .err) :: rest)) :=
  claim_C9 envW "log" ⟨some ⟨"", 0, [], [], none⟩, ⟨none, []⟩⟩ ""
    ⟨"", 0, [], [], none⟩ rfl (by decide)

/-! ## Claim C10 -/

/-- Claim C2 (amended): for every audit path that decodes, the CT
verifier returns true iff the claim's fold from the leaf hash, with the
direction at step `i` being bit `i % 32` of `leafIndex % 2 ^ 32`
counted from the least-significant bit upward (and 0 — sibling on the
right — from step 64 on), reaches the claimed root.  In particular an
empty audit path verifies iff `leafHash` equals the claimed root.  The
claim's stated direction `n - 1 - i` is refuted by
`claim_C2_counterexample`; the `% 32` wrap is the `numberToBits` bug of
claim C7. -/
theorem claim_C2 (env : JsEnv) (proof : CtMerkleProof)
    (leafHash expectedRootHash : List Nat) (pathBytes : List (List Nat))
    (hdecode : proof.audit_path.mapM (base64ToBytes env) = .ok pathBytes) :
    validateCtProof env proof leafHash expectedRootHash = true ↔
      specFoldDir env.sha256 ctNodePre (specCtDirActual proof.leaf_index)
        leafHash 0 pathBytes = expectedRootHash := by
  have hlen := mapM_ok_length _ _ _ hdecode
  have hcode : validateCtProof env proof leafHash expectedRootHash =
      areArraysEqual (calculateRootHash env.sha256 ctNodePre leafHash
        ((numberToBits proof.leaf_index).reverse.take proof.audit_path.length) pathBytes)
        expectedRootHash := by
    rw [validateCtProof, validateCtProofE]
    simp only [bind, Except.bind, hdecode, pure, Except.pure]
  have hfold : calculateRootHash env.sha256 ctNodePre leafHash
      ((numberToBits proof.leaf_index).reverse.take proof.audit_path.length) pathBytes =
      specFoldDir env.sha256 ctNodePre (specCtDirActual proof.leaf_index) leafHash 0 pathBytes := by
    rw [calculateRootHash_eq_specFold]
    apply specFoldDir_congr
    intro k hk
    simp only [Nat.zero_add]
    exact ctBits_getD _ _ _ (by omega)
  rw [hcode, hfold, areArraysEqual_iff]

set_option maxRecDepth 8192 in
/-- Witness for `claim_C2` at a concrete one-step proof. -/
theorem claim_C2_witness :
    (["\x02"].mapM (base64ToBytes envW) = .ok [[2]]) ∧
    (validateCtProof envW ⟨1, ["\x02"]⟩ [7] (hashW [1, 2, 7]) = true ↔
      specFoldDir envW.sha256 ctNodePre (specCtDirActual 1) [7] 0 [[2]] = hashW [1, 2, 7]) :=
  ⟨by decide, claim_C2 envW ⟨1, ["\x02"]⟩ [7] (hashW [1, 2, 7]) [[2]] (by decide)⟩

set_option maxRecDepth 8192 in
/-- Claim C2 counterexample: with leaf index 1 and a two-entry audit
path (decoding to `[2]` and `[3]`), the expected root is set to exactly
the fold the claim's direction formula `n - 1 - i` predicts — the claim
then demands `true`, but the verifier (which consumes bit `i`, not bit
`n - 1 - i`, at step `i`) returns `false`. -/
theorem claim_C2_counterexample :
    envW.atob "\x02" = some [2] ∧ envW.atob "\x03" = some [3] ∧
    validateCtProof envW ⟨1, ["\x02", "\x03"]⟩ [5]
      (specFoldDir envW.sha256 ctNodePre (specCtDirClaimed 1 2) [5] 0 [[2], [3]]) = false := by
  decide

/-! ## Claim C4 -/

/-- A `mapM` over `base64ToBytes` fails when any entry fails to
decode. -/
theorem mapM_base64_error (env : JsEnv) :
    ∀ (l : List String), (∃ s ∈ l, env.atob s = none) →
    ∃ e, l.mapM (base64ToBytes env) = .error e := by
  intro l
  induction l with
  | nil => rintro ⟨s, hs, -⟩; cases hs
  | cons a rest ih =>
    rintro ⟨s, hs, hnone⟩
    rw [List.mem_cons] at hs
    rw [List.mapM_cons]
    cases ha : env.atob a with
    | none =>
      refine ⟨"InvalidCharacterError", ?_⟩
      simp [bind, Except.bind, base64ToBytes, ha]
    | some b =>
      rcases hs with rfl | hs
      · rw [ha] at hnone; cases hnone
      · obtain ⟨e, he⟩ := ih ⟨s, hs, hnone⟩
        refine ⟨e, ?_⟩
        have hba : base64ToBytes env a = Except.ok b := by rw [base64ToBytes, ha]
        rw [hba]
        simp only [bind, Except.bind]
        rw [he]

/-- Claim C4 (confirmed): the two proof verifiers are total boolean
predicates — the embedded `try`/`catch` wrappers (`validatePrismProof`,
`validateCtProof`) turn every thrown error of their bodies into `false`
(second conjuncts), `validatePrismProof` returns `false` when the leaf
is absent (first conjunct), and either verifier returns `true` only
when every decode step succeeded, the recomputed leaf hash equals the
declared one, and the recomputed root equals the claimed root (third
conjuncts) — hence any decode failure, leaf mismatch, or root mismatch
yields `false`. -/
theorem claim_C4 :
    (∀ (env : JsEnv) (proof : PrismProof) (key : String) (value : List Nat) (rootHex : String),
      (proof.leaf = none → validatePrismProof env proof key value rootHex = false) ∧
      (∀ e, validatePrismProofE env proof key value rootHex = .error e →
        validatePrismProof env proof key value rootHex = false) ∧
      (validatePrismProof env proof key value rootHex = true →
        ∃ leafHex leafBytes rootBytes sibs,
          proof.leaf = some leafHex ∧
          hexToBytes leafHex = .ok leafBytes ∧
          leafBytes = env.sha256 (prismLeafDomSep ++ env.sha256 (env.utf8 key) ++ env.sha256 value) ∧
          hexToBytes rootHex = .ok rootBytes ∧
          proof.siblings.mapM hexToBytes = .ok sibs ∧
          calculateRootHash env.sha256 prismInternalDomSep
            (env.sha256 (prismLeafDomSep ++ env.sha256 (env.utf8 key) ++ env.sha256 value))
            (jsSliceFrom (bytesToBits (env.sha256 (env.utf8 key))).reverse
              ((256 : Int) - proof.siblings.length)) sibs = rootBytes)) ∧
    (∀ (env : JsEnv) (proof : CtMerkleProof) (leafHash rootHash : List Nat),
      (∀ e, validateCtProofE env proof leafHash rootHash = .error e →
        validateCtProof env proof leafHash rootHash = false) ∧
      ((∃ s ∈ proof.audit_path, env.atob s = none) →
        validateCtProof env proof leafHash rootHash = false) ∧
      (validateCtProof env proof leafHash rootHash = true →
        ∃ sibs, proof.audit_path.mapM (base64ToBytes env) = .ok sibs ∧
          calculateRootHash env.sha256 ctNodePre leafHash
            ((numberToBits proof.leaf_index).reverse.take proof.audit_path.length) sibs
            = rootHash)) := by
  constructor
  · intro env proof key value rootHex
    refine ⟨?_, ?_, ?_⟩
    · intro hnone
      rw [validatePrismProof, validatePrismProofE, hnone]
      rfl
    · intro e he
      rw [validatePrismProof, he]
    · intro h
      cases hleafo : proof.leaf with
      | none =>
        rw [validatePrismProof, validatePrismProofE, hleafo] at h
        cases h
      | some leafHex =>
      cases hld : hexToBytes leafHex with
      | error e =>
        rw [validatePrismProof, validatePrismProofE, hleafo] at h
        simp only [bind, Except.bind, hld] at h
        cases h
      | ok lb =>
      cases hb : areArraysEqual
          (env.sha256 (prismLeafDomSep ++ env.sha256 (env.utf8 key) ++ env.sha256 value))
          lb with
      | false =>
        rw [validatePrismProof, validatePrismProofE, hleafo] at h
        simp only [bind, Except.bind, hld, hb, Bool.not_false, eq_self_iff_true, if_true,
          pure, Except.pure] at h
        cases h
      | true =>
      cases hrd : hexToBytes rootHex with
      | error e =>
        rw [validatePrismProof, validatePrismProofE, hleafo] at h
        simp only [bind, Except.bind, hld, hb, hrd, Bool.not_true, Bool.false_eq_true,
          if_false, pure, Except.pure] at h
      | ok rb =>
      cases hsd : proof.siblings.mapM hexToBytes with
      | error e =>
        rw [validatePrismProof, validatePrismProofE, hleafo] at h
        simp only [bind, Except.bind, hld, hb, hrd, hsd, Bool.not_true, Bool.false_eq_true,
          if_false, pure, Except.pure] at h
      | ok sibs =>
        rw [validatePrismProof, validatePrismProofE, hleafo] at h
        simp only [bind, Except.bind, hld, hb, hrd, hsd, Bool.not_true, Bool.false_eq_true,
          if_false, pure, Except.pure] at h
        exact ⟨leafHex, lb, rb, sibs, rfl, hld, ((areArraysEqual_iff _ _).mp hb).symm,
          rfl, rfl, (areArraysEqual_iff _ _).mp h⟩
  · intro env proof leafHash rootHash
    have herr : ∀ e, validateCtProofE env proof leafHash rootHash = .error e →
        validateCtProof env proof leafHash rootHash = false := by
      intro e he
      rw [validateCtProof, he]
    refine ⟨herr, ?_, ?_⟩
    · intro hbad
      obtain ⟨e, he⟩ := mapM_base64_error env proof.audit_path hbad
      apply herr e
      rw [validateCtProofE]
      simp only [bind, Except.bind, he]
    · intro h
      rw [validateCtProof, validateCtProofE] at h
      simp only [bind, Except.bind] at h
      cases hsd : proof.audit_path.mapM (base64ToBytes env) with
      | error e =>
        rw [hsd] at h
        cases h
      | ok sibs =>
        rw [hsd] at h
        simp only [pure, Except.pure] at h
        exact ⟨sibs, rfl, (areArraysEqual_iff _ _).mp h⟩


/-- Witness for `claim_C4`: an absent leaf yields `false`, and a CT
proof whose audit path contains undecodable base64 yields `false`. -/
theorem claim_C4_witness :
    validatePrismProof envW ⟨none, []⟩ "" [] "" = false ∧
    validateCtProof envW ⟨0, ["\u20AC"]⟩ [] [] = false :=
  ⟨(claim_C4.1 envW ⟨none, []⟩ "" [] "").1 rfl,
    (claim_C4.2 envW ⟨0, ["\u20AC"]⟩ [] []).2.1 ⟨"\u20AC", by decide, by decide⟩⟩

/-! ## Claim C3 -/

/-- Claim C3 (amended): for every sparse proof with a present leaf hash,
at most 256 siblings, decodable hex fields, and a 32-byte key hash, the
verifier returns true iff the declared leaf hash decodes to exactly the
recomputed `SHA256(LEAF_TAG ‖ SHA256(key) ‖ SHA256(value))` AND the
claim's fold — direction at step `i` (0 = leaf-adjacent) being bit
`n - 1 - i` of the key hash counted from its most-significant bit —
reaches the hex-decoded claimed root.  The claim as stated omits the
leaf-equality gate; `claim_C3_counterexample` shows it is needed. -/
theorem claim_C3 (env : JsEnv) (proof : PrismProof) (key : String) (value : List Nat)
    (rootHex leafHex : String) (leafBytes rootBytes : List Nat) (sibs : List (List Nat))
    (hleaf : proof.leaf = some leafHex)
    (hn : proof.siblings.length ≤ 256)
    (hkh : (env.sha256 (env.utf8 key)).length = 32)
    (hld : hexToBytes leafHex = .ok leafBytes)
    (hrd : hexToBytes rootHex = .ok rootBytes)
    (hsd : proof.siblings.mapM hexToBytes = .ok sibs) :
    validatePrismProof env proof key value rootHex = true ↔
      (leafBytes = specPrismLeafHash env key value ∧
        specFoldDir env.sha256 prismInternalDomSep
          (specPrismDir (env.sha256 (env.utf8 key)) proof.siblings.length)
          (specPrismLeafHash env key value) 0 sibs = rootBytes) := by
  have hlen := mapM_ok_length _ _ _ hsd
  rw [validatePrismProof, validatePrismProofE, hleaf]
  simp only [bind, Except.bind, hld, hrd, hsd, pure, Except.pure]
  have hslice : jsSliceFrom (bytesToBits (env.sha256 (env.utf8 key))).reverse
      ((256 : Int) - proof.siblings.length) =
      (bytesToBits (env.sha256 (env.utf8 key))).reverse.drop (256 - proof.siblings.length) := by
    rw [jsSliceFrom, if_neg (by omega)]
    congr 1
    omega
  rw [hslice]
  have hfold : calculateRootHash env.sha256 prismInternalDomSep
      (env.sha256 (prismLeafDomSep ++ env.sha256 (env.utf8 key) ++ env.sha256 value))
      ((bytesToBits (env.sha256 (env.utf8 key))).reverse.drop (256 - proof.siblings.length))
      sibs =
      specFoldDir env.sha256 prismInternalDomSep
        (specPrismDir (env.sha256 (env.utf8 key)) proof.siblings.length)
        (env.sha256 (prismLeafDomSep ++ env.sha256 (env.utf8 key) ++ env.sha256 value))
        0 sibs := by
    rw [calculateRootHash_eq_specFold]
    apply specFoldDir_congr
    intro k hk
    simp only [Nat.zero_add]
    exact prismBits_getD _ hkh _ _ hn (by omega)
  by_cases heq : areArraysEqual
      (env.sha256 (prismLeafDomSep ++ env.sha256 (env.utf8 key) ++ env.sha256 value))
      leafBytes = true
  · have heqv := (areArraysEqual_iff _ _).mp heq
    rw [if_neg (by rw [heq]; simp)]
    rw [hfold]
    constructor
    · intro h
      exact ⟨heqv.symm, (areArraysEqual_iff _ _).mp h⟩
    · rintro ⟨h1, h2⟩
      exact (areArraysEqual_iff _ _).mpr h2
  · have heqf : areArraysEqual
        (env.sha256 (prismLeafDomSep ++ env.sha256 (env.utf8 key) ++ env.sha256 value))
        leafBytes = false := by
      cases hb : areArraysEqual
          (env.sha256 (prismLeafDomSep ++ env.sha256 (env.utf8 key) ++ env.sha256 value))
          leafBytes
      · rfl
      · exact absurd hb heq
    rw [if_pos (by rw [heqf]; rfl)]
    constructor
    · intro h
      cases h
    · rintro ⟨h1, h2⟩
      exact absurd ((areArraysEqual_iff _ _).mpr h1.symm) heq

set_option maxRecDepth 8192 in
/-- Witness for `claim_C3`: a valid empty-sibling proof whose declared
leaf equals the recomputed leaf hash. -/
theorem claim_C3_witness :
    (hexToBytes "00000000000000000000000000000000000000000000000000000000000000dd" =
      .ok (List.replicate 31 0 ++ [221])) ∧
    (validatePrismProof envW
        ⟨some "00000000000000000000000000000000000000000000000000000000000000dd", []⟩
        "" [] "00000000000000000000000000000000000000000000000000000000000000dd" = true ↔
      (List.replicate 31 0 ++ [221] = specPrismLeafHash envW "" [] ∧
        specFoldDir envW.sha256 prismInternalDomSep
          (specPrismDir (envW.sha256 (envW.utf8 "")) ([] : List String).length)
          (specPrismLeafHash envW "" []) 0 [] = List.replicate 31 0 ++ [221])) :=
  ⟨by decide,
    claim_C3 envW
      ⟨some "00000000000000000000000000000000000000000000000000000000000000dd", []⟩
      "" [] "00000000000000000000000000000000000000000000000000000000000000dd"
      "00000000000000000000000000000000000000000000000000000000000000dd"
      (List.replicate 31 0 ++ [221]) (List.replicate 31 0 ++ [221]) []
      rfl (by decide) (by decide) (by decide) (by decide) (by decide)⟩

set_option maxRecDepth 8192 in
/-- Claim C3 counterexample: a proof whose declared leaf (`"00"`) is
NOT the recomputed leaf hash, with an empty sibling list and the
claimed root set to the recomputed leaf hash itself.  The claim's fold
(empty, so equal to the recomputed leaf hash) matches the hex-decoded
claimed root, so the claim as stated demands `true`; the verifier
returns `false` because of the leaf-equality gate it omits. -/
theorem claim_C3_counterexample :
    validatePrismProof envW ⟨some "00", []⟩ "" []
      "00000000000000000000000000000000000000000000000000000000000000dd" = false ∧
    hexToBytes "00000000000000000000000000000000000000000000000000000000000000dd" =
      .ok (specPrismLeafHash envW "" []) ∧
    specFoldDir envW.sha256 prismInternalDomSep
      (specPrismDir (envW.sha256 (envW.utf8 "")) 0) (specPrismLeafHash envW "" []) 0 [] =
      specPrismLeafHash envW "" [] ∧
    hexToBytes "00" = .ok [0] := by decide

end CtExt
